import Mathlib

/-
  Shallow embedding of the Phi-lang validation kernel.

  Sources:
  * phi_import_system.py : the recursive, import-aware validator
    (Rule, Module, PhiSystem, Validator._collect_rules, Validator.validate,
    and the parser's handling of an `import Name` line).
  * phi_modular_system.py : the earlier registry variant, whose
    PhiSystem.create_module unconditionally installs a fresh module.
  * phi_kernel_poc.py : Rule.check.

  Python heap objects (Rule, Module) are mutable and shared; we model the
  heap as index stores (ruleStore, modStore) carried in the system state,
  and object references as indices into those stores.  Operand tuples are
  fixed to List Int; a predicate or transformation returning none models a
  raised exception, some b a normal return.  The traversal's visited set is
  a list used only through membership.  The recursive validate loop and the
  recursive rule collector are given fuel; fuel-sufficiency lemmas below
  show the chosen fuel values are never exhausted, so the embedding agrees
  with the (terminating) Python recursion.
-/

namespace PhiImport

/-- Operand tuples passed to transformations and predicates. -/
abbrev Args := List Int

/-- A rule predicate; `none` models a raised exception. -/
abbrev Pred := Args → Option Bool

/-- A transformation under test; `none` models a raised exception. -/
abbrev Transform := Args → Option Int

/-- `RuleType` of phi_import_system.py: HARD / SOFT. -/
inductive RuleType where
  | hard
  | soft
deriving DecidableEq, Repr

/-- `Rule` of phi_import_system.py: name, kind, logic, source_module, active. -/
structure Rule where
  name : String
  kind : RuleType
  logic : Pred
  source_module : String
  active : Bool

/-- `Rule.__init__`: the active flag starts true. -/
def mkRule (name : String) (kind : RuleType) (logic : Pred)
    (source_module : String) : Rule :=
  ⟨name, kind, logic, source_module, true⟩

/-- `Module` of phi_import_system.py.  `rules` and `imports` hold heap
references (store indices); `generators` maps a name to its class name and
is never read by the engine. -/
structure Module where
  name : String
  generators : List (String × String) := []
  rules : List Nat := []
  imports : List Nat := []
deriving DecidableEq, Repr

/-- `PhiSystem` of phi_import_system.py plus the modelled heap:
`modules` is the registry dictionary (name to module reference),
`ruleStore` / `modStore` hold the heap objects. -/
structure PhiSystem where
  ruleStore : List Rule := []
  modStore : List Module := []
  modules : List (String × Nat) := []
  current_module : Option Nat := none

/-- Python dict lookup on an association list (first matching key). -/
def lookupMod : List (String × Nat) → String → Option Nat
  | [], _ => none
  | (k, v) :: rest, name => if k = name then some v else lookupMod rest name

/-- Python dict assignment: an existing key keeps its position and gets the
new value, a fresh key is appended. -/
def assocUpdate : List (String × Nat) → String → Nat → List (String × Nat)
  | [], k, v => [(k, v)]
  | (k', v') :: rest, k, v =>
    if k' = k then (k, v) :: rest else (k', v') :: assocUpdate rest k v

/-- `PhiSystem.get_module`. -/
def get_module (sys : PhiSystem) (name : String) : Option Nat :=
  lookupMod sys.modules name

/-- `PhiSystem.create_module` of phi_import_system.py: if the name exists
the existing module is returned (and made current); otherwise a fresh
module is allocated, registered and made current. -/
def create_module (sys : PhiSystem) (name : String) : PhiSystem × Nat :=
  match get_module sys name with
  | some mid => ({ sys with current_module := some mid }, mid)
  | none =>
    let mid := sys.modStore.length
    ({ sys with
        modStore := sys.modStore ++ [{ name := name }],
        modules := sys.modules ++ [(name, mid)],
        current_module := some mid }, mid)

/-- Replace the heap object at index `i` (no-op when out of range, which
cannot happen for references obtained from the stores). -/
def setStore (l : List α) (i : Nat) (a : α) : List α := l.set i a

/-- `Module.add_rule`: a freshly constructed Rule object is allocated and
appended to the module's rule list. -/
def add_rule (sys : PhiSystem) (mid : Nat) (r : Rule) : PhiSystem :=
  let rid := sys.ruleStore.length
  { sys with
      ruleStore := sys.ruleStore ++ [r],
      modStore :=
        match sys.modStore[mid]? with
        | some m => setStore sys.modStore mid { m with rules := m.rules ++ [rid] }
        | none => sys.modStore }

/-- `Module.add_import`: appends a direct reference to an existing module. -/
def add_import (sys : PhiSystem) (mid impMid : Nat) : PhiSystem :=
  { sys with
      modStore :=
        match sys.modStore[mid]? with
        | some m => setStore sys.modStore mid { m with imports := m.imports ++ [impMid] }
        | none => sys.modStore }

/-- The parser's `import Name` branch (phi_import_system.py, lines 148-158):
the name is resolved through the registry at declaration time; if it
resolves, a direct reference is appended to the current module's imports,
otherwise the line is reported as an error and dropped. -/
def parse_import (sys : PhiSystem) (impName : String) : PhiSystem :=
  match sys.current_module with
  | none => sys
  | some cur =>
    match get_module sys impName with
    | some impMid => add_import sys cur impMid
    | none => sys

/-- `Validator._collect_rules`: depth-first traversal accumulating
(collected rule references, visited module names).  The traversal reads
only the module store, so it is parameterised by `store` alone.  `fuel`
bounds the recursion depth; `collect_rules` below supplies enough. -/
def _collect_rules (store : List Module) : Nat → Nat → List Nat × List String → List Nat × List String
  | 0, _, st => st
  | fuel + 1, mid, st =>
    match store[mid]? with
    | none => st
    | some m =>
      if m.name ∈ st.2 then st
      else m.imports.foldl (fun st' imp => _collect_rules store fuel imp st')
        (st.1 ++ m.rules, m.name :: st.2)

/-- The rule set collected for a module: `self._collect_rules(target_module,
all_rules, set())` with sufficient fuel. -/
def collect_rules (sys : PhiSystem) (mid : Nat) : List Nat :=
  (_collect_rules sys.modStore (sys.modStore.length + 1) mid ([], [])).1

/-- `len(all_rules)` as printed by the audit line of `validate`. -/
def auditCount (sys : PhiSystem) (mid : Nat) : Nat :=
  (collect_rules sys mid).length

/-- Outcome of one pass of the verification loop over the collected rules. -/
inductive ScanResult where
  | accept
  | hardStop (name source_module : String)
  | softFix (rid : Nat)
deriving DecidableEq, Repr

/-- One pass of the `for rule in all_rules` loop of `Validator.validate`:
inactive rules are skipped, a raising predicate is skipped, a passing
predicate continues, and the first active failing rule stops the pass with
its kind's branch. -/
def firstViolation (sys : PhiSystem) : List Nat → Args → ScanResult
  | [], _ => .accept
  | rid :: rest, args =>
    match sys.ruleStore[rid]? with
    | none => firstViolation sys rest args
    | some r =>
      if r.active then
        match r.logic args with
        | none => firstViolation sys rest args
        | some true => firstViolation sys rest args
        | some false =>
          match r.kind with
          | .hard => .hardStop r.name r.source_module
          | .soft => .softFix rid
      else firstViolation sys rest args

/-- The repair step `rule.active = False`: in-place mutation of the shared
Rule object. -/
def deactivate (sys : PhiSystem) (rid : Nat) : PhiSystem :=
  match sys.ruleStore[rid]? with
  | some r => { sys with ruleStore := setStore sys.ruleStore rid { r with active := false } }
  | none => sys

/-- The verdict of a validate call, refining the Python boolean by which
return statement produced it (the code distinguishes them in its output). -/
inductive Verdict where
  | moduleNotFound
  | execError
  | hardViolation (name source_module : String)
  | accepted
deriving DecidableEq, Repr

/-- The boolean actually returned by the Python `validate`. -/
def Verdict.toBool : Verdict → Bool
  | .accepted => true
  | _ => false

/-- `Validator.validate` with explicit fuel for the soft-repair recursion
(`none` = fuel exhausted, which the sufficiency lemmas below rule out):
resolve the module, execute the transformation, collect the rules, scan
them, and on a soft conflict deactivate the rule and re-invoke the whole
validation with the same module name, transformation, arguments and
(mutated) registry. -/
def validateAux : Nat → PhiSystem → String → Transform → Args → Option (Verdict × PhiSystem)
  | 0, _, _, _, _ => none
  | fuel + 1, sys, module_name, func, args =>
    match get_module sys module_name with
    | none => some (.moduleNotFound, sys)
    | some mid =>
      match func args with
      | none => some (.execError, sys)
      | some _ =>
        match firstViolation sys (collect_rules sys mid) args with
        | .accept => some (.accepted, sys)
        | .hardStop n s => some (.hardViolation n s, sys)
        | .softFix rid => validateAux fuel (deactivate sys rid) module_name func args

/-- Number of active rules on the heap; each soft repair strictly decreases
it, so it bounds the restarts of any validate call. -/
def countActive (sys : PhiSystem) : Nat :=
  (sys.ruleStore.filter (fun r => r.active)).length

/-- `Validator.validate`: the fueled loop with provably sufficient fuel. -/
def validate (sys : PhiSystem) (module_name : String) (func : Transform)
    (args : Args) : Verdict × PhiSystem :=
  (validateAux (countActive sys + 1) sys module_name func args).getD (.execError, sys)

/-- The active flag of the rule object behind a reference. -/
def activeAt (sys : PhiSystem) (rid : Nat) : Bool :=
  ((sys.ruleStore[rid]?).map (fun r => r.active)).getD false

/-- Whether a reference points to an active soft rule. -/
def isActiveSoft (sys : PhiSystem) (rid : Nat) : Bool :=
  match sys.ruleStore[rid]? with
  | some r => r.active && (match r.kind with | .soft => true | .hard => false)
  | none => false

/-- Number of distinct active soft rules reachable from a module: the `k`
of the claimed termination bound. -/
def activeSoftCount (sys : PhiSystem) (mid : Nat) : Nat :=
  ((collect_rules sys mid).dedup.filter (isActiveSoft sys)).length

/-- A sequence of validate calls, each running on the state the previous
one left behind. -/
def runCalls (sys : PhiSystem) : List (String × Transform × Args) → PhiSystem
  | [] => sys
  | (m, f, a) :: rest => runCalls (validate sys m f a).2 rest

/-- What the engine may do to the state: everything except the rules'
active flags is preserved, and an active flag can only go from true to
false, never back. -/
def Evolves (sys sys' : PhiSystem) : Prop :=
  sys'.modStore = sys.modStore ∧
  sys'.modules = sys.modules ∧
  sys'.current_module = sys.current_module ∧
  sys'.ruleStore.length = sys.ruleStore.length ∧
  (∀ i,
    ((sys'.ruleStore[i]?).map Rule.name = (sys.ruleStore[i]?).map Rule.name) ∧
    ((sys'.ruleStore[i]?).map Rule.kind = (sys.ruleStore[i]?).map Rule.kind) ∧
    ((sys'.ruleStore[i]?).map Rule.source_module
      = (sys.ruleStore[i]?).map Rule.source_module) ∧
    ((sys'.ruleStore[i]?).map Rule.logic = (sys.ruleStore[i]?).map Rule.logic) ∧
    (activeAt sys' i = true → activeAt sys i = true))

/-- Rules of the module behind a reference (empty for a dangling one). -/
def ruleIdsAt (store : List Module) (i : Nat) : List Nat :=
  ((store[i]?).map Module.rules).getD []

/-- Name of the module behind a reference. -/
def nameAt (store : List Module) (i : Nat) : String :=
  ((store[i]?).map Module.name).getD ""

/-- Concatenated rule lists of a sequence of module references. -/
def bindRules (store : List Module) : List Nat → List Nat
  | [] => []
  | i :: rest => ruleIdsAt store i ++ bindRules store rest

/-- Names of a sequence of module references. -/
def namesOf (store : List Module) (order : List Nat) : List String :=
  order.map (nameAt store)

/-- How many of the given module names are not yet visited; the traversal's
termination measure. -/
def countFresh : List String → List String → Nat
  | [], _ => 0
  | n :: rest, visited => (if n ∈ visited then 0 else 1) + countFresh rest visited

/-- Unvisited module names of a store. -/
def unvisited (store : List Module) (visited : List String) : Nat :=
  countFresh (store.map Module.name) visited

end PhiImport

namespace Modular

/-- `Rule` of phi_modular_system.py (no source_module field). -/
structure Rule where
  name : String
  kind : PhiImport.RuleType
  logic : PhiImport.Pred
  active : Bool

/-- `Module` of phi_modular_system.py (no imports). -/
structure Module where
  name : String
  generators : List (String × String) := []
  rules : List Nat := []
  transformations : List String := []
deriving DecidableEq, Repr

/-- `PhiSystem` of phi_modular_system.py with the modelled heap. -/
structure PhiSystem where
  ruleStore : List Rule := []
  modStore : List Module := []
  modules : List (String × Nat) := []
  current_module : Option Nat := none

/-- `PhiSystem.get_module` of phi_modular_system.py. -/
def get_module (sys : PhiSystem) (name : String) : Option Nat :=
  PhiImport.lookupMod sys.modules name

/-- `PhiSystem.create_module` of phi_modular_system.py (lines 44-49): it
always builds a fresh empty module and assigns it into the registry,
overwriting whatever the name was bound to. -/
def create_module (sys : PhiSystem) (name : String) : PhiSystem × Nat :=
  let mid := sys.modStore.length
  ({ sys with
      modStore := sys.modStore ++ [{ name := name }],
      modules := PhiImport.assocUpdate sys.modules name mid,
      current_module := some mid }, mid)

/-- `Module.add_rule` of phi_modular_system.py. -/
def add_rule (sys : PhiSystem) (mid : Nat) (r : Rule) : PhiSystem :=
  let rid := sys.ruleStore.length
  { sys with
      ruleStore := sys.ruleStore ++ [r],
      modStore :=
        match sys.modStore[mid]? with
        | some m => PhiImport.setStore sys.modStore mid { m with rules := m.rules ++ [rid] }
        | none => sys.modStore }

end Modular

namespace KernelPoc

/-- `Rule` of phi_kernel_poc.py. -/
structure Rule where
  name : String
  predicate : PhiImport.Pred
  kind : PhiImport.RuleType
  active : Bool

/-- `Rule.check` of phi_kernel_poc.py: an inactive rule returns True
without consulting its predicate. -/
def Rule.check (r : Rule) (args : PhiImport.Args) : Option Bool :=
  if r.active then r.predicate args else some true

/-- A deactivated rule whose predicate would reject everything. -/
def exDead : Rule := ⟨"dead", fun _ => some false, .soft, false⟩

end KernelPoc

namespace PhiImport

/-- Example: one module carrying one failing soft rule. -/
def exSoftRule : Rule := mkRule "commutativity" .soft (fun _ => some false) "Arithmetic"

/-- Registry holding `exSoftRule` in module Arithmetic. -/
def exSoftSys : PhiSystem := add_rule (create_module {} "Arithmetic").1 0 exSoftRule

/-- Example: a hard rule whose predicate always fails. -/
def exHardRule : Rule := mkRule "nonzero" .hard (fun _ => some false) "M"

/-- Registry where module M holds a failing soft rule followed by the
failing hard rule `exHardRule`. -/
def exMixSys : PhiSystem :=
  add_rule (add_rule (create_module {} "M").1 0 (mkRule "s" .soft (fun _ => some false) "M"))
    0 exHardRule

/-- Registry with an import cycle: A imports B, B imports A, one rule each. -/
def exCycSys : PhiSystem :=
  let s := (create_module (create_module {} "A").1 "B").1
  let s := add_import (add_import s 0 1) 1 0
  add_rule (add_rule s 0 (mkRule "ra" .hard (fun _ => some true) "A")) 1
    (mkRule "rb" .soft (fun _ => some true) "B")

/-- Example rule whose predicate raises on every argument tuple. -/
def exRaisingRule : Rule := mkRule "shape" .hard (fun _ => none) "M8"

/-- Registry holding only `exRaisingRule`. -/
def exRaiseSys : PhiSystem := add_rule (create_module {} "M8").1 0 exRaisingRule

/-- Registry holding one already-deactivated rule. -/
def exInactiveSys : PhiSystem :=
  add_rule (create_module {} "M10").1 0 ⟨"r", .hard, fun _ => some false, "M10", false⟩

/-- Forward-import scenario: module A declares `import B` before B exists;
B is created afterwards and given a rule. -/
def exFwdSys : PhiSystem :=
  let s := parse_import (create_module {} "A").1 "B"
  add_rule (create_module s "B").1 1 (mkRule "r" .hard (fun _ => some false) "B")

/-- Registry with modules A and B and no imports (B is current). -/
def exTwoSys : PhiSystem := (create_module (create_module {} "A").1 "B").1

/-- A transformation that always succeeds. -/
def exOk : Transform := fun _ => some 1

end PhiImport

namespace Modular

/-- Modular-system registry where module A already owns one rule. -/
def exASys : PhiSystem :=
  add_rule (create_module {} "A").1 0 ⟨"r", .hard, fun _ => some true, true⟩

end Modular

namespace PhiImport

/-- Modelled from the spec (section 4.1, RuleCollector): the depth-first
preorder in which module references are first visited — skip a module whose
name is already visited; otherwise emit the module itself, then traverse
each of its imports in import-declaration order, threading the visited
set from one import to the next.  Returns (visit order, visited names).
This is the reference ordering the claim asserts for the collector; the
theorem below proves the source collector's output is exactly the
concatenation of the rule blocks of this order. -/
def dfsOrder (store : List Module) : Nat → Nat → List String → List Nat × List String
  | 0, _, visited => ([], visited)
  | fuel + 1, mid, visited =>
    match store[mid]? with
    | none => ([], visited)
    | some m =>
      if m.name ∈ visited then ([], visited)
      else
        let p := m.imports.foldl
          (fun (a : List Nat × List String) imp =>
            (a.1 ++ (dfsOrder store fuel imp a.2).1, (dfsOrder store fuel imp a.2).2))
          ([], m.name :: visited)
        (mid :: p.1, p.2)

/-- Modelled from the spec: visit a list of module references in
declaration order, depth-first, threading the visited set left to right;
the orders produced by the successive references are concatenated in that
same left-to-right order. -/
def dfsOrderList (store : List Module) (fuel : Nat) (l : List Nat)
    (st : List Nat × List String) : List Nat × List String :=
  l.foldl
    (fun (a : List Nat × List String) imp =>
      (a.1 ++ (dfsOrder store fuel imp a.2).1, (dfsOrder store fuel imp a.2).2))
    st

/-- The spec's depth-first preorder of module references for a whole
collection rooted at `mid`, at the collector's own fuel. -/
def dfsPreorder (store : List Module) (mid : Nat) : List Nat :=
  (dfsOrder store (store.length + 1) mid []).1

/-- Registry where module R imports B first and A second (declaration
order), each of the three modules owning one rule. -/
def exOrdSys : PhiSystem :=
  let s := (create_module (create_module (create_module {} "R").1 "A").1 "B").1
  let s := add_import (add_import s 0 2) 0 1
  add_rule (add_rule (add_rule s 0 (mkRule "rr" .hard (fun _ => some true) "R"))
    2 (mkRule "rb" .hard (fun _ => some true) "B")) 1 (mkRule "ra" .hard (fun _ => some true) "A")

end PhiImport

namespace PhiImport

/-! ### Heap-store helper lemmas -/

theorem get?_some_lt {α} {l : List α} {i : Nat} {a : α} (h : l[i]? = some a) :
    i < l.length :=
  (List.getElem?_eq_some.mp h).1

theorem setStore_get?_ne {α} (l : List α) (a : α) {i j : Nat} (h : j ≠ i) :
    (setStore l i a)[j]? = l[j]? := by
  unfold setStore
  exact List.getElem?_set_ne (fun hij => h hij.symm)

theorem setStore_get?_self {α} {l : List α} {i : Nat} (a : α) (h : i < l.length) :
    (setStore l i a)[i]? = some a := by
  unfold setStore
  exact List.getElem?_set_self h

theorem setStore_length {α} (l : List α) (i : Nat) (a : α) :
    (setStore l i a).length = l.length := by
  unfold setStore
  exact List.length_set ..

/-! ### Deactivation lemmas: the repair step touches one active flag only -/

theorem deactivate_modStore (sys : PhiSystem) (rid : Nat) :
    (deactivate sys rid).modStore = sys.modStore := by
  unfold deactivate
  cases sys.ruleStore[rid]? <;> rfl

theorem deactivate_modules (sys : PhiSystem) (rid : Nat) :
    (deactivate sys rid).modules = sys.modules := by
  unfold deactivate
  cases sys.ruleStore[rid]? <;> rfl

theorem deactivate_current (sys : PhiSystem) (rid : Nat) :
    (deactivate sys rid).current_module = sys.current_module := by
  unfold deactivate
  cases sys.ruleStore[rid]? <;> rfl

theorem deactivate_get_module (sys : PhiSystem) (rid : Nat) (name : String) :
    get_module (deactivate sys rid) name = get_module sys name := by
  unfold get_module
  rw [deactivate_modules]

theorem deactivate_ruleStore_length (sys : PhiSystem) (rid : Nat) :
    (deactivate sys rid).ruleStore.length = sys.ruleStore.length := by
  unfold deactivate
  cases h : sys.ruleStore[rid]? with
  | none => rfl
  | some r => simp [setStore_length]

theorem deactivate_get?_ne (sys : PhiSystem) {rid rid' : Nat} (h : rid' ≠ rid) :
    (deactivate sys rid).ruleStore[rid']? = sys.ruleStore[rid']? := by
  unfold deactivate
  cases hr : sys.ruleStore[rid]? with
  | none => rfl
  | some r => simpa using setStore_get?_ne sys.ruleStore { r with active := false } h

theorem deactivate_get?_self {sys : PhiSystem} {rid : Nat} {r : Rule}
    (h : sys.ruleStore[rid]? = some r) :
    (deactivate sys rid).ruleStore[rid]? = some { r with active := false } := by
  unfold deactivate
  rw [h]
  simpa using setStore_get?_self { r with active := false } (get?_some_lt h)

theorem collect_congr {sys sys' : PhiSystem} (h : sys'.modStore = sys.modStore)
    (mid : Nat) : collect_rules sys' mid = collect_rules sys mid := by
  unfold collect_rules
  rw [h]

theorem collect_deactivate (sys : PhiSystem) (rid mid : Nat) :
    collect_rules (deactivate sys rid) mid = collect_rules sys mid :=
  collect_congr (deactivate_modStore sys rid) mid

theorem deactivate_eq_none {sys : PhiSystem} {rid : Nat}
    (h : sys.ruleStore[rid]? = none) : deactivate sys rid = sys := by
  unfold deactivate
  rw [h]

theorem deactivate_eq_some {sys : PhiSystem} {rid : Nat} {r : Rule}
    (h : sys.ruleStore[rid]? = some r) :
    deactivate sys rid
      = { sys with ruleStore := setStore sys.ruleStore rid { r with active := false } } := by
  unfold deactivate
  rw [h]

theorem deactivate_comm {sys : PhiSystem} {rid rid' : Nat} (h : rid ≠ rid') :
    deactivate (deactivate sys rid) rid' = deactivate (deactivate sys rid') rid := by
  cases h1 : sys.ruleStore[rid]? with
  | none =>
    rw [deactivate_eq_none h1]
    cases h2 : sys.ruleStore[rid']? with
    | none => rw [deactivate_eq_none h2, deactivate_eq_none h1]
    | some r' =>
      have e2 : (deactivate sys rid').ruleStore[rid]? = none := by
        rw [deactivate_get?_ne sys h, h1]
      rw [deactivate_eq_none e2]
  | some r =>
    cases h2 : sys.ruleStore[rid']? with
    | none =>
      rw [deactivate_eq_none h2]
      have e1 : (deactivate sys rid).ruleStore[rid']? = none := by
        rw [deactivate_get?_ne sys (Ne.symm h), h2]
      rw [deactivate_eq_none e1]
    | some r' =>
      rw [deactivate_eq_some h1, deactivate_eq_some h2]
      have k1 : ({ sys with ruleStore := setStore sys.ruleStore rid { r with active := false } }
          : PhiSystem).ruleStore[rid']? = some r' := by
        simpa using (setStore_get?_ne sys.ruleStore { r with active := false }
          (Ne.symm h)).trans h2
      have k2 : ({ sys with ruleStore := setStore sys.ruleStore rid' { r' with active := false } }
          : PhiSystem).ruleStore[rid]? = some r := by
        simpa using (setStore_get?_ne sys.ruleStore { r' with active := false } h).trans h1
      rw [deactivate_eq_some k1, deactivate_eq_some k2]
      simp only [setStore]
      rw [List.set_comm _ _ _ h]

end PhiImport

namespace PhiImport

/-! ### Scan lemmas: how one pass of the rule loop behaves -/

theorem firstViolation_cons_skip {sys : PhiSystem} {rid : Nat} {args : Args}
    (h : activeAt sys rid = false ∨ ∃ r, sys.ruleStore[rid]? = some r ∧ r.logic args = none)
    (l : List Nat) :
    firstViolation sys (rid :: l) args = firstViolation sys l args := by
  cases hr : sys.ruleStore[rid]? with
  | none => simp [firstViolation, hr]
  | some r =>
    rcases h with h | ⟨r', hr', hn⟩
    · have ha : r.active = false := by simpa [activeAt, hr] using h
      simp [firstViolation, hr, ha]
    · have e : r = r' := Option.some.inj (hr.symm.trans hr')
      subst e
      cases ha : r.active with
      | false => simp [firstViolation, hr, ha]
      | true => simp [firstViolation, hr, ha, hn]

theorem firstViolation_insert_skip {sys : PhiSystem} {rid : Nat} {args : Args}
    (h : activeAt sys rid = false ∨ ∃ r, sys.ruleStore[rid]? = some r ∧ r.logic args = none) :
    ∀ xs ys, firstViolation sys (xs ++ rid :: ys) args = firstViolation sys (xs ++ ys) args := by
  intro xs
  induction xs with
  | nil => intro ys; simpa using firstViolation_cons_skip h ys
  | cons x xs ih =>
    intro ys
    simp only [List.cons_append]
    cases hx : sys.ruleStore[x]? with
    | none => simp [firstViolation, hx, ih ys]
    | some r =>
      cases ha : r.active with
      | false => simp [firstViolation, hx, ha, ih ys]
      | true =>
        cases hl : r.logic args with
        | none => simp [firstViolation, hx, ha, hl, ih ys]
        | some b =>
          cases b with
          | true => simp [firstViolation, hx, ha, hl, ih ys]
          | false =>
            cases hk : r.kind with
            | hard => simp [firstViolation, hx, ha, hl, hk]
            | soft => simp [firstViolation, hx, ha, hl, hk]

theorem firstViolation_softFix {sys : PhiSystem} {args : Args} :
    ∀ {rids : List Nat} {rid : Nat}, firstViolation sys rids args = .softFix rid →
      rid ∈ rids ∧ ∃ r, sys.ruleStore[rid]? = some r ∧ r.active = true ∧
        r.kind = .soft ∧ r.logic args = some false := by
  intro rids
  induction rids with
  | nil => intro rid h; simp [firstViolation] at h
  | cons x rest ih =>
    intro rid h
    cases hx : sys.ruleStore[x]? with
    | none =>
      rw [show firstViolation sys (x :: rest) args = firstViolation sys rest args by
        simp [firstViolation, hx]] at h
      obtain ⟨hm, hr⟩ := ih h
      exact ⟨List.mem_cons_of_mem _ hm, hr⟩
    | some r =>
      cases ha : r.active with
      | false =>
        rw [show firstViolation sys (x :: rest) args = firstViolation sys rest args by
          simp [firstViolation, hx, ha]] at h
        obtain ⟨hm, hr⟩ := ih h
        exact ⟨List.mem_cons_of_mem _ hm, hr⟩
      | true =>
        cases hl : r.logic args with
        | none =>
          rw [show firstViolation sys (x :: rest) args = firstViolation sys rest args by
            simp [firstViolation, hx, ha, hl]] at h
          obtain ⟨hm, hr⟩ := ih h
          exact ⟨List.mem_cons_of_mem _ hm, hr⟩
        | some b =>
          cases b with
          | true =>
            rw [show firstViolation sys (x :: rest) args = firstViolation sys rest args by
              simp [firstViolation, hx, ha, hl]] at h
            obtain ⟨hm, hr⟩ := ih h
            exact ⟨List.mem_cons_of_mem _ hm, hr⟩
          | false =>
            cases hk : r.kind with
            | hard =>
              rw [show firstViolation sys (x :: rest) args = .hardStop r.name r.source_module by
                simp [firstViolation, hx, ha, hl, hk]] at h
              cases h
            | soft =>
              rw [show firstViolation sys (x :: rest) args = .softFix x by
                simp [firstViolation, hx, ha, hl, hk]] at h
              cases h
              exact ⟨List.mem_cons_self .., ⟨r, hx, ha, hk, hl⟩⟩

theorem firstViolation_ne_accept {sys : PhiSystem} {args : Args} {r : Rule} :
    ∀ {rids : List Nat} {rid : Nat}, rid ∈ rids → sys.ruleStore[rid]? = some r →
      r.active = true → r.logic args = some false →
      firstViolation sys rids args ≠ .accept := by
  intro rids
  induction rids with
  | nil => intro rid h; simp at h
  | cons x rest ih =>
    intro rid hmem hr ha hl
    cases hx : sys.ruleStore[x]? with
    | none =>
      have hmem' : rid ∈ rest := by
        rcases List.mem_cons.mp hmem with rfl | hm
        · rw [hr] at hx; cases hx
        · exact hm
      rw [show firstViolation sys (x :: rest) args = firstViolation sys rest args by
        simp [firstViolation, hx]]
      exact ih hmem' hr ha hl
    | some rx =>
      cases hax : rx.active with
      | false =>
        have hmem' : rid ∈ rest := by
          rcases List.mem_cons.mp hmem with rfl | hm
          · rw [hr] at hx
            cases Option.some.inj hx
            rw [ha] at hax; cases hax
          · exact hm
        rw [show firstViolation sys (x :: rest) args = firstViolation sys rest args by
          simp [firstViolation, hx, hax]]
        exact ih hmem' hr ha hl
      | true =>
        cases hlx : rx.logic args with
        | none =>
          have hmem' : rid ∈ rest := by
            rcases List.mem_cons.mp hmem with rfl | hm
            · rw [hr] at hx
              cases Option.some.inj hx
              rw [hl] at hlx; cases hlx
            · exact hm
          rw [show firstViolation sys (x :: rest) args = firstViolation sys rest args by
            simp [firstViolation, hx, hax, hlx]]
          exact ih hmem' hr ha hl
        | some b =>
          cases b with
          | true =>
            have hmem' : rid ∈ rest := by
              rcases List.mem_cons.mp hmem with rfl | hm
              · rw [hr] at hx
                cases Option.some.inj hx
                rw [hl] at hlx; cases hlx
              · exact hm
            rw [show firstViolation sys (x :: rest) args = firstViolation sys rest args by
              simp [firstViolation, hx, hax, hlx]]
            exact ih hmem' hr ha hl
          | false =>
            cases hkx : rx.kind with
            | hard =>
              rw [show firstViolation sys (x :: rest) args
                  = .hardStop rx.name rx.source_module by
                simp [firstViolation, hx, hax, hlx, hkx]]
              intro h; cases h
            | soft =>
              rw [show firstViolation sys (x :: rest) args = .softFix x by
                simp [firstViolation, hx, hax, hlx, hkx]]
              intro h; cases h

/-! ### Counting lemmas for the termination measures -/

theorem filter_congr_own {α} (p q : α → Bool) :
    ∀ l : List α, (∀ x ∈ l, p x = q x) → l.filter p = l.filter q := by
  intro l
  induction l with
  | nil => intro _; rfl
  | cons x xs ih =>
    intro h
    have hx := h x (List.mem_cons_self ..)
    have ht := ih (fun y hy => h y (List.mem_cons_of_mem _ hy))
    simp only [List.filter_cons, hx, ht]

theorem filter_set_length {α} (p : α → Bool) :
    ∀ (l : List α) (i : Nat) (a b : α), l[i]? = some a → p a = true → p b = false →
      ((setStore l i b).filter p).length + 1 = (l.filter p).length := by
  intro l
  induction l with
  | nil => intro i a b h; simp at h
  | cons x xs ih =>
    intro i a b h hpa hpb
    cases i with
    | zero =>
      have e : x = a := by simpa using h
      subst e
      simp [setStore, List.set, List.filter_cons, hpa, hpb]
    | succ i =>
      have h' : xs[i]? = some a := by simpa using h
      have step := ih i a b h' hpa hpb
      simp only [setStore] at step
      cases hx : p x with
      | true =>
        simp [setStore, List.set, List.filter_cons, hx]
        omega
      | false =>
        simp [setStore, List.set, List.filter_cons, hx]
        omega

theorem filter_length_of_mem {α} (p q : α → Bool) :
    ∀ (l : List α) (a : α), l.Nodup → a ∈ l → p a = true → q a = false →
      (∀ x ∈ l, x ≠ a → q x = p x) →
      (l.filter q).length + 1 = (l.filter p).length := by
  intro l
  induction l with
  | nil => intro a _ ha; simp at ha
  | cons x xs ih =>
    intro a hnd hmem hpa hqa hother
    rcases List.mem_cons.mp hmem with rfl | hmem'
    · have hax : a ∉ xs := (List.nodup_cons.mp hnd).1
      have e : xs.filter q = xs.filter p :=
        filter_congr_own q p xs
          (fun y hy => hother y (List.mem_cons_of_mem _ hy) (fun hya => hax (hya ▸ hy)))
      simp [List.filter_cons, hpa, hqa, e]
    · have hnd' := (List.nodup_cons.mp hnd).2
      have hxa : x ≠ a := fun e => (List.nodup_cons.mp hnd).1 (e ▸ hmem')
      have hqx : q x = p x := hother x (List.mem_cons_self ..) hxa
      have step := ih a hnd' hmem' hpa hqa
        (fun y hy => hother y (List.mem_cons_of_mem _ hy))
      cases hpx : p x with
      | true =>
        rw [hpx] at hqx
        simp [List.filter_cons, hqx, hpx]
        omega
      | false =>
        rw [hpx] at hqx
        simp [List.filter_cons, hqx, hpx]
        omega

theorem countActive_deactivate {sys : PhiSystem} {rid : Nat} {r : Rule}
    (h : sys.ruleStore[rid]? = some r) (ha : r.active = true) :
    countActive (deactivate sys rid) + 1 = countActive sys := by
  rw [deactivate_eq_some h]
  unfold countActive
  exact filter_set_length _ sys.ruleStore rid r { r with active := false } h ha rfl

theorem isActiveSoft_deactivate_self {sys : PhiSystem} {rid : Nat} {r : Rule}
    (h : sys.ruleStore[rid]? = some r) :
    isActiveSoft (deactivate sys rid) rid = false := by
  unfold isActiveSoft
  rw [deactivate_get?_self h]
  simp

theorem isActiveSoft_deactivate_ne {sys : PhiSystem} {rid rid' : Nat} (h : rid' ≠ rid) :
    isActiveSoft (deactivate sys rid) rid' = isActiveSoft sys rid' := by
  unfold isActiveSoft
  rw [deactivate_get?_ne sys h]

theorem isActiveSoft_true {sys : PhiSystem} {rid : Nat} {r : Rule}
    (h : sys.ruleStore[rid]? = some r) (ha : r.active = true) (hk : r.kind = .soft) :
    isActiveSoft sys rid = true := by
  simp [isActiveSoft, h, ha, hk]

theorem activeSoftCount_deactivate {sys : PhiSystem} {mid rid : Nat} {r : Rule}
    (hmem : rid ∈ collect_rules sys mid) (h : sys.ruleStore[rid]? = some r)
    (ha : r.active = true) (hk : r.kind = .soft) :
    activeSoftCount (deactivate sys rid) mid + 1 = activeSoftCount sys mid := by
  unfold activeSoftCount
  rw [collect_deactivate]
  exact filter_length_of_mem (isActiveSoft sys) (isActiveSoft (deactivate sys rid))
    (collect_rules sys mid).dedup rid (List.nodup_dedup _) (List.mem_dedup.mpr hmem)
    (isActiveSoft_true h ha hk) (isActiveSoft_deactivate_self h)
    (fun x _ hx => isActiveSoft_deactivate_ne hx)

end PhiImport

namespace PhiImport

/-! ### Decomposition of the rule collector -/

theorem bindRules_append (store : List Module) :
    ∀ l1 l2, bindRules store (l1 ++ l2) = bindRules store l1 ++ bindRules store l2 := by
  intro l1 l2
  induction l1 with
  | nil => rfl
  | cons x xs ih => simp [bindRules, ih]

theorem namesOf_append (store : List Module) (l1 l2 : List Nat) :
    namesOf store (l1 ++ l2) = namesOf store l1 ++ namesOf store l2 := by
  simp [namesOf]

theorem collectList_decomp (store : List Module) (fuel : Nat)
    (ih : ∀ (mid : Nat) (st : List Nat × List String),
      ∃ order : List Nat,
        _collect_rules store fuel mid st
          = (st.1 ++ bindRules store order, (namesOf store order).reverse ++ st.2)
        ∧ (namesOf store order).Nodup
        ∧ (∀ n ∈ namesOf store order, n ∉ st.2)
        ∧ (∀ i ∈ order, (store[i]?).isSome)) :
    ∀ (l : List Nat) (st : List Nat × List String),
      ∃ order : List Nat,
        l.foldl (fun st' imp => _collect_rules store fuel imp st') st
          = (st.1 ++ bindRules store order, (namesOf store order).reverse ++ st.2)
        ∧ (namesOf store order).Nodup
        ∧ (∀ n ∈ namesOf store order, n ∉ st.2)
        ∧ (∀ i ∈ order, (store[i]?).isSome) := by
  intro l
  induction l with
  | nil =>
    intro st
    exact ⟨[], by simp [bindRules, namesOf], by simp [namesOf], by simp [namesOf], by simp⟩
  | cons x xs ihl =>
    intro st
    obtain ⟨o1, e1, nd1, f1, v1⟩ := ih x st
    obtain ⟨o2, e2, nd2, f2, v2⟩ :=
      ihl (st.1 ++ bindRules store o1, (namesOf store o1).reverse ++ st.2)
    refine ⟨o1 ++ o2, ?_, ?_, ?_, ?_⟩
    · simp only [List.foldl_cons]
      rw [e1, e2]
      simp [bindRules_append, namesOf_append, List.reverse_append, List.append_assoc]
    · rw [namesOf_append, List.nodup_append]
      refine ⟨nd1, nd2, ?_⟩
      intro a ha1 ha2
      have := f2 a ha2
      rw [List.mem_append] at this
      push_neg at this
      exact this.1 (List.mem_reverse.mpr ha1)
    · intro n hn
      rw [namesOf_append, List.mem_append] at hn
      rcases hn with hn | hn
      · exact f1 n hn
      · have := f2 n hn
        rw [List.mem_append] at this
        push_neg at this
        exact this.2
    · intro i hi
      rw [List.mem_append] at hi
      rcases hi with hi | hi
      · exact v1 i hi
      · exact v2 i hi

theorem collect_decomp (store : List Module) :
    ∀ (fuel : Nat) (mid : Nat) (st : List Nat × List String),
      ∃ order : List Nat,
        _collect_rules store fuel mid st
          = (st.1 ++ bindRules store order, (namesOf store order).reverse ++ st.2)
        ∧ (namesOf store order).Nodup
        ∧ (∀ n ∈ namesOf store order, n ∉ st.2)
        ∧ (∀ i ∈ order, (store[i]?).isSome) := by
  intro fuel
  induction fuel with
  | zero =>
    intro mid st
    exact ⟨[], by simp [_collect_rules, bindRules, namesOf], by simp [namesOf],
      by simp [namesOf], by simp⟩
  | succ fuel ih =>
    intro mid st
    cases hm : store[mid]? with
    | none =>
      exact ⟨[], by simp [_collect_rules, hm, bindRules, namesOf], by simp [namesOf],
        by simp [namesOf], by simp⟩
    | some m =>
      by_cases hv : m.name ∈ st.2
      · exact ⟨[], by simp [_collect_rules, hm, hv, bindRules, namesOf], by simp [namesOf],
          by simp [namesOf], by simp⟩
      · obtain ⟨o, e, nd, fr, va⟩ :=
          collectList_decomp store fuel ih m.imports (st.1 ++ m.rules, m.name :: st.2)
        have hr : ruleIdsAt store mid = m.rules := by simp [ruleIdsAt, hm]
        have hn : nameAt store mid = m.name := by simp [nameAt, hm]
        refine ⟨mid :: o, ?_, ?_, ?_, ?_⟩
        · rw [show _collect_rules store (fuel + 1) mid st
              = m.imports.foldl (fun st' imp => _collect_rules store fuel imp st')
                  (st.1 ++ m.rules, m.name :: st.2) by
            simp [_collect_rules, hm, hv]]
          rw [e]
          simp [bindRules, namesOf, hr, hn, List.append_assoc]
        · simp only [namesOf, List.map_cons, hn]
          rw [List.nodup_cons]
          exact ⟨fun hmem => (fr m.name hmem) (List.mem_cons_self ..), nd⟩
        · intro n hn2
          simp only [namesOf, List.map_cons, hn] at hn2
          rcases List.mem_cons.mp hn2 with rfl | hn2
          · exact hv
          · intro hst
            exact (fr n hn2) (List.mem_cons_of_mem _ hst)
        · intro i hi
          rcases List.mem_cons.mp hi with rfl | hi
          · simp [hm]
          · exact va i hi

theorem collect_visited_extend (store : List Module) (fuel mid : Nat)
    (st : List Nat × List String) :
    ∃ ns, (_collect_rules store fuel mid st).2 = ns ++ st.2 := by
  obtain ⟨o, e, _, _, _⟩ := collect_decomp store fuel mid st
  exact ⟨(namesOf store o).reverse, by rw [e]⟩

/-! ### Fuel stability of the collector: cycles cannot exhaust it -/

theorem countFresh_append_le (ns v : List String) :
    ∀ l : List String, countFresh l (ns ++ v) ≤ countFresh l v := by
  intro l
  induction l with
  | nil => simp [countFresh]
  | cons n rest ih =>
    simp only [countFresh]
    have : (if n ∈ ns ++ v then 0 else 1) ≤ (if n ∈ v then (0 : Nat) else 1) := by
      by_cases hv : n ∈ v
      · simp [hv, List.mem_append]
      · by_cases hn : n ∈ ns ++ v <;> simp [hv, hn]
    omega

theorem countFresh_lt (v : List String) (a : String) :
    ∀ l : List String, a ∈ l → a ∉ v → countFresh l (a :: v) < countFresh l v := by
  intro l
  induction l with
  | nil => intro h; simp at h
  | cons n rest ih =>
    intro hmem hav
    have hle : countFresh rest (a :: v) ≤ countFresh rest v :=
      countFresh_append_le [a] v rest
    rcases List.mem_cons.mp hmem with rfl | hmem'
    · have h1 : (if a ∈ a :: v then (0 : Nat) else 1) = 0 := by simp
      have h2 : (if a ∈ v then (0 : Nat) else 1) = 1 := by simp [hav]
      simp only [countFresh, h1, h2]
      omega
    · have := ih hmem' hav
      simp only [countFresh]
      have hstep : (if n ∈ a :: v then 0 else 1) ≤ (if n ∈ v then (0 : Nat) else 1) := by
        by_cases hv : n ∈ v
        · simp [hv, List.mem_cons]
        · by_cases hn : n ∈ a :: v <;> simp [hv, hn]
      omega

theorem countFresh_eq_zero {v : List String} :
    ∀ {l : List String}, countFresh l v = 0 → ∀ n ∈ l, n ∈ v := by
  intro l
  induction l with
  | nil => intro _ n h; simp at h
  | cons x rest ih =>
    intro h n hn
    simp only [countFresh] at h
    by_cases hx : x ∈ v
    · rcases List.mem_cons.mp hn with rfl | hn'
      · exact hx
      · exact ih (by omega) n hn'
    · simp [hx] at h

theorem countFresh_nil_visited : ∀ l : List String, countFresh l [] = l.length := by
  intro l
  induction l with
  | nil => rfl
  | cons x rest ih =>
    show (if x ∈ ([] : List String) then 0 else 1) + countFresh rest [] = (x :: rest).length
    rw [if_neg (List.not_mem_nil x), ih]
    simp only [List.length_cons]
    omega

theorem collectFold_stable (store : List Module) (fuel : Nat)
    (ih : ∀ (mid : Nat) (st : List Nat × List String), unvisited store st.2 ≤ fuel →
      _collect_rules store (fuel + 1) mid st = _collect_rules store fuel mid st) :
    ∀ (l : List Nat) (st : List Nat × List String), unvisited store st.2 ≤ fuel →
      l.foldl (fun st' imp => _collect_rules store (fuel + 1) imp st') st
        = l.foldl (fun st' imp => _collect_rules store fuel imp st') st := by
  intro l
  induction l with
  | nil => intro st _; rfl
  | cons x xs ihl =>
    intro st h
    simp only [List.foldl_cons]
    rw [ih x st h]
    obtain ⟨ns, hns⟩ := collect_visited_extend store fuel x st
    have hle : unvisited store ((_collect_rules store fuel x st).2) ≤ fuel := by
      rw [hns]
      exact le_trans (countFresh_append_le ns st.2 _) h
    exact ihl _ hle

theorem collect_stable (store : List Module) :
    ∀ (fuel : Nat) (mid : Nat) (st : List Nat × List String), unvisited store st.2 ≤ fuel →
      _collect_rules store (fuel + 1) mid st = _collect_rules store fuel mid st := by
  intro fuel
  induction fuel with
  | zero =>
    intro mid st h
    cases hm : store[mid]? with
    | none => simp [_collect_rules, hm]
    | some m =>
      have hmem : m.name ∈ store.map Module.name :=
        List.mem_map_of_mem _ (List.getElem?_mem hm)
      have hv : m.name ∈ st.2 :=
        countFresh_eq_zero (Nat.le_zero.mp h) m.name hmem
      simp [_collect_rules, hm, hv]
  | succ fuel ih =>
    intro mid st h
    cases hm : store[mid]? with
    | none => simp [_collect_rules, hm]
    | some m =>
      by_cases hv : m.name ∈ st.2
      · simp [_collect_rules, hm, hv]
      · rw [show _collect_rules store (fuel + 1 + 1) mid st
            = m.imports.foldl (fun st' imp => _collect_rules store (fuel + 1) imp st')
                (st.1 ++ m.rules, m.name :: st.2) by
          simp [_collect_rules, hm, hv]]
        rw [show _collect_rules store (fuel + 1) mid st
            = m.imports.foldl (fun st' imp => _collect_rules store fuel imp st')
                (st.1 ++ m.rules, m.name :: st.2) by
          simp [_collect_rules, hm, hv]]
        have hmem : m.name ∈ store.map Module.name :=
          List.mem_map_of_mem _ (List.getElem?_mem hm)
        have hlt : unvisited store (m.name :: st.2) < unvisited store st.2 :=
          countFresh_lt st.2 m.name _ hmem hv
        exact collectFold_stable store fuel ih m.imports
          (st.1 ++ m.rules, m.name :: st.2) (by simp only [unvisited] at hlt h ⊢; omega)

theorem collect_stable_ge (store : List Module) (mid : Nat) :
    ∀ fuel, store.length ≤ fuel →
      _collect_rules store fuel mid ([], [])
        = _collect_rules store store.length mid ([], []) := by
  have base : unvisited store [] = store.length := by
    simp [unvisited, countFresh_nil_visited]
  have up : ∀ d, _collect_rules store (store.length + d) mid ([], [])
      = _collect_rules store store.length mid ([], []) := by
    intro d
    induction d with
    | zero => rfl
    | succ d ihd =>
      have : store.length + (d + 1) = (store.length + d) + 1 := by omega
      rw [this, collect_stable store (store.length + d) mid ([], [])
        (by rw [base]; omega)]
      exact ihd
  intro fuel h
  have : fuel = store.length + (fuel - store.length) := by omega
  rw [this]
  exact up _

end PhiImport

namespace PhiImport

/-! ### What the engine does to the state -/

theorem evolves_refl (sys : PhiSystem) : Evolves sys sys :=
  ⟨rfl, rfl, rfl, rfl, fun _ => ⟨rfl, rfl, rfl, rfl, fun h => h⟩⟩

theorem Evolves.trans {s1 s2 s3 : PhiSystem} (h12 : Evolves s1 s2) (h23 : Evolves s2 s3) :
    Evolves s1 s3 := by
  obtain ⟨a12, b12, c12, d12, e12⟩ := h12
  obtain ⟨a23, b23, c23, d23, e23⟩ := h23
  refine ⟨a23.trans a12, b23.trans b12, c23.trans c12, d23.trans d12, fun i => ?_⟩
  obtain ⟨n12, k12, s12, l12, m12⟩ := e12 i
  obtain ⟨n23, k23, s23, l23, m23⟩ := e23 i
  exact ⟨n23.trans n12, k23.trans k12, s23.trans s12, l23.trans l12,
    fun h => m12 (m23 h)⟩

theorem activeAt_congr {sys sys' : PhiSystem} {i : Nat}
    (h : sys'.ruleStore[i]? = sys.ruleStore[i]?) : activeAt sys' i = activeAt sys i := by
  unfold activeAt
  rw [h]

theorem deactivate_evolves (sys : PhiSystem) (rid : Nat) :
    Evolves sys (deactivate sys rid) := by
  cases h : sys.ruleStore[rid]? with
  | none =>
    rw [deactivate_eq_none h]
    exact evolves_refl sys
  | some r =>
    refine ⟨deactivate_modStore .., deactivate_modules .., deactivate_current ..,
      deactivate_ruleStore_length .., fun i => ?_⟩
    by_cases hi : i = rid
    · subst hi
      rw [deactivate_get?_self h, h]
      refine ⟨rfl, rfl, rfl, rfl, fun hact => ?_⟩
      have : activeAt (deactivate sys i) i = false := by
        simp [activeAt, deactivate_get?_self h]
      rw [this] at hact
      cases hact
    · rw [deactivate_get?_ne sys hi]
      exact ⟨rfl, rfl, rfl, rfl, fun hact => by
        rw [activeAt_congr (deactivate_get?_ne sys hi)] at hact; exact hact⟩

theorem validateAux_evolves :
    ∀ (fuel : Nat) (sys : PhiSystem) (mname : String) (f : Transform) (args : Args)
      {v : Verdict} {sys' : PhiSystem},
      validateAux fuel sys mname f args = some (v, sys') → Evolves sys sys' := by
  intro fuel
  induction fuel with
  | zero =>
    intro sys mname f args v sys' h
    simp [validateAux] at h
  | succ fuel ih =>
    intro sys mname f args v sys' h
    cases hmod : get_module sys mname with
    | none =>
      simp only [validateAux, hmod, Option.some.injEq, Prod.mk.injEq] at h
      obtain ⟨-, rfl⟩ := h
      exact evolves_refl sys
    | some mid =>
      cases hex : f args with
      | none =>
        simp only [validateAux, hmod, hex, Option.some.injEq, Prod.mk.injEq] at h
        obtain ⟨-, rfl⟩ := h
        exact evolves_refl sys
      | some vres =>
        cases hscan : firstViolation sys (collect_rules sys mid) args with
        | accept =>
          simp only [validateAux, hmod, hex, hscan, Option.some.injEq, Prod.mk.injEq] at h
          obtain ⟨-, rfl⟩ := h
          exact evolves_refl sys
        | hardStop n s =>
          simp only [validateAux, hmod, hex, hscan, Option.some.injEq, Prod.mk.injEq] at h
          obtain ⟨-, rfl⟩ := h
          exact evolves_refl sys
        | softFix rid =>
          simp only [validateAux, hmod, hex, hscan] at h
          exact Evolves.trans (deactivate_evolves sys rid) (ih _ _ _ _ h)

theorem validate_evolves (sys : PhiSystem) (mname : String) (f : Transform) (args : Args) :
    Evolves sys (validate sys mname f args).2 := by
  unfold validate
  cases h : validateAux (countActive sys + 1) sys mname f args with
  | none => exact evolves_refl sys
  | some p =>
    obtain ⟨v, sys'⟩ := p
    exact validateAux_evolves _ sys mname f args h

theorem runCalls_evolves :
    ∀ (calls : List (String × Transform × Args)) (sys : PhiSystem),
      Evolves sys (runCalls sys calls) := by
  intro calls
  induction calls with
  | nil => intro sys; exact evolves_refl sys
  | cons c rest ih =>
    intro sys
    obtain ⟨m, f, a⟩ := c
    exact Evolves.trans (validate_evolves sys m f a) (ih _)

end PhiImport

namespace PhiImport

/-! ### Hard-rule primacy across soft repairs -/

theorem validateAux_hard {mname : String} {f : Transform} {args : Args} {mid : Nat}
    {v : Int} {rid : Nat} :
    ∀ (fuel : Nat) (sys : PhiSystem) (r : Rule), countActive sys < fuel →
      get_module sys mname = some mid → f args = some v →
      rid ∈ collect_rules sys mid → sys.ruleStore[rid]? = some r →
      r.active = true → r.kind = .hard → r.logic args = some false →
      ∃ n s sys', validateAux fuel sys mname f args = some (.hardViolation n s, sys') := by
  intro fuel
  induction fuel with
  | zero =>
    intro sys r hcnt
    exact absurd hcnt (Nat.not_lt_zero _)
  | succ fuel ih =>
    intro sys r hcnt hmod hex hmem hr ha hk hl
    cases hscan : firstViolation sys (collect_rules sys mid) args with
    | accept => exact absurd hscan (firstViolation_ne_accept hmem hr ha hl)
    | hardStop n s =>
      exact ⟨n, s, sys, by simp [validateAux, hmod, hex, hscan]⟩
    | softFix rid2 =>
      obtain ⟨hmem2, r2, hr2, ha2, hk2, hl2⟩ := firstViolation_softFix hscan
      have hne : rid ≠ rid2 := by
        intro e
        subst e
        rw [hr] at hr2
        cases Option.some.inj hr2
        rw [hk] at hk2
        simp at hk2
      have hstep : validateAux (fuel + 1) sys mname f args
          = validateAux fuel (deactivate sys rid2) mname f args := by
        simp [validateAux, hmod, hex, hscan]
      rw [hstep]
      apply ih (deactivate sys rid2) r
      · have := countActive_deactivate hr2 ha2
        omega
      · rw [deactivate_get_module]
        exact hmod
      · exact hex
      · rw [collect_deactivate]
        exact hmem
      · rw [deactivate_get?_ne sys hne]
        exact hr
      · exact ha
      · exact hk
      · exact hl

/-! ### The restart bound: at most k soft repairs, k + 1 passes -/

theorem validateAux_bound {mname : String} {f : Transform} {args : Args} {mid : Nat} :
    ∀ (k : Nat) (sys : PhiSystem), get_module sys mname = some mid →
      activeSoftCount sys mid = k →
      (validateAux (k + 1) sys mname f args).isSome
      ∧ ∀ fuel, k + 1 ≤ fuel →
          validateAux fuel sys mname f args = validateAux (k + 1) sys mname f args := by
  intro k
  induction k with
  | zero =>
    intro sys hmod hk
    cases hex : f args with
    | none =>
      refine ⟨by simp [validateAux, hmod, hex], fun fuel hf => ?_⟩
      cases fuel with
      | zero => omega
      | succ fuel => simp [validateAux, hmod, hex]
    | some v =>
      cases hscan : firstViolation sys (collect_rules sys mid) args with
      | accept =>
        refine ⟨by simp [validateAux, hmod, hex, hscan], fun fuel hf => ?_⟩
        cases fuel with
        | zero => omega
        | succ fuel => simp [validateAux, hmod, hex, hscan]
      | hardStop n s =>
        refine ⟨by simp [validateAux, hmod, hex, hscan], fun fuel hf => ?_⟩
        cases fuel with
        | zero => omega
        | succ fuel => simp [validateAux, hmod, hex, hscan]
      | softFix rid =>
        exfalso
        obtain ⟨hmem, r, hr, ha, hkk, hl⟩ := firstViolation_softFix hscan
        have h1 : isActiveSoft sys rid = true := isActiveSoft_true hr ha hkk
        have hmem2 : rid ∈ (collect_rules sys mid).dedup.filter (isActiveSoft sys) :=
          List.mem_filter.mpr ⟨List.mem_dedup.mpr hmem, h1⟩
        have hpos : 0 < activeSoftCount sys mid := by
          unfold activeSoftCount
          cases he : (collect_rules sys mid).dedup.filter (isActiveSoft sys) with
          | nil => rw [he] at hmem2; simp at hmem2
          | cons y ys => simp [he]
        omega
  | succ k ihk =>
    intro sys hmod hk
    cases hex : f args with
    | none =>
      refine ⟨by simp [validateAux, hmod, hex], fun fuel hf => ?_⟩
      cases fuel with
      | zero => omega
      | succ fuel => simp [validateAux, hmod, hex]
    | some v =>
      cases hscan : firstViolation sys (collect_rules sys mid) args with
      | accept =>
        refine ⟨by simp [validateAux, hmod, hex, hscan], fun fuel hf => ?_⟩
        cases fuel with
        | zero => omega
        | succ fuel => simp [validateAux, hmod, hex, hscan]
      | hardStop n s =>
        refine ⟨by simp [validateAux, hmod, hex, hscan], fun fuel hf => ?_⟩
        cases fuel with
        | zero => omega
        | succ fuel => simp [validateAux, hmod, hex, hscan]
      | softFix rid =>
        obtain ⟨hmem, r, hr, ha, hkk, hl⟩ := firstViolation_softFix hscan
        have hcnt : activeSoftCount (deactivate sys rid) mid = k := by
          have := activeSoftCount_deactivate hmem hr ha hkk
          omega
        have hmod2 : get_module (deactivate sys rid) mname = some mid := by
          rw [deactivate_get_module]
          exact hmod
        obtain ⟨hsome, hstab⟩ := ihk (deactivate sys rid) hmod2 hcnt
        have hstep : ∀ fl, validateAux (fl + 1) sys mname f args
            = validateAux fl (deactivate sys rid) mname f args := by
          intro fl
          simp [validateAux, hmod, hex, hscan]
        refine ⟨?_, fun fuel hf => ?_⟩
        · rw [hstep (k + 1)]
          exact hsome
        · cases fuel with
          | zero => omega
          | succ fl =>
            rw [hstep fl, hstep (k + 1)]
            exact hstab fl (by omega)

/-! ### A rule whose predicate raises is invisible to the engine -/

theorem firstViolation_deactivate_raising {sys : PhiSystem} {rid : Nat} {r : Rule}
    {args : Args} (hr : sys.ruleStore[rid]? = some r) (hn : r.logic args = none) :
    ∀ rids, firstViolation (deactivate sys rid) rids args = firstViolation sys rids args := by
  intro rids
  induction rids with
  | nil => rfl
  | cons x rest ih =>
    by_cases hx : x = rid
    · subst hx
      rw [firstViolation_cons_skip (Or.inr ⟨r, hr, hn⟩) rest]
      rw [show firstViolation (deactivate sys x) (x :: rest) args
          = firstViolation (deactivate sys x) rest args from
        firstViolation_cons_skip
          (Or.inr ⟨{ r with active := false }, deactivate_get?_self hr, hn⟩) rest]
      exact ih
    · have hx2 : (deactivate sys rid).ruleStore[x]? = sys.ruleStore[x]? :=
        deactivate_get?_ne sys hx
      cases hxx : sys.ruleStore[x]? with
      | none =>
        rw [show firstViolation sys (x :: rest) args = firstViolation sys rest args by
          simp [firstViolation, hxx]]
        rw [show firstViolation (deactivate sys rid) (x :: rest) args
            = firstViolation (deactivate sys rid) rest args by
          simp [firstViolation, hx2.trans hxx]]
        exact ih
      | some rx =>
        cases hax : rx.active with
        | false =>
          rw [show firstViolation sys (x :: rest) args = firstViolation sys rest args by
            simp [firstViolation, hxx, hax]]
          rw [show firstViolation (deactivate sys rid) (x :: rest) args
              = firstViolation (deactivate sys rid) rest args by
            simp [firstViolation, hx2.trans hxx, hax]]
          exact ih
        | true =>
          cases hlx : rx.logic args with
          | none =>
            rw [show firstViolation sys (x :: rest) args = firstViolation sys rest args by
              simp [firstViolation, hxx, hax, hlx]]
            rw [show firstViolation (deactivate sys rid) (x :: rest) args
                = firstViolation (deactivate sys rid) rest args by
              simp [firstViolation, hx2.trans hxx, hax, hlx]]
            exact ih
          | some b =>
            cases b with
            | true =>
              rw [show firstViolation sys (x :: rest) args = firstViolation sys rest args by
                simp [firstViolation, hxx, hax, hlx]]
              rw [show firstViolation (deactivate sys rid) (x :: rest) args
                  = firstViolation (deactivate sys rid) rest args by
                simp [firstViolation, hx2.trans hxx, hax, hlx]]
              exact ih
            | false =>
              cases hkx : rx.kind with
              | hard =>
                rw [show firstViolation sys (x :: rest) args
                    = .hardStop rx.name rx.source_module by
                  simp [firstViolation, hxx, hax, hlx, hkx]]
                rw [show firstViolation (deactivate sys rid) (x :: rest) args
                    = .hardStop rx.name rx.source_module by
                  simp [firstViolation, hx2.trans hxx, hax, hlx, hkx]]
              | soft =>
                rw [show firstViolation sys (x :: rest) args = .softFix x by
                  simp [firstViolation, hxx, hax, hlx, hkx]]
                rw [show firstViolation (deactivate sys rid) (x :: rest) args = .softFix x by
                  simp [firstViolation, hx2.trans hxx, hax, hlx, hkx]]

theorem validateAux_raising_verdict {mname : String} {f : Transform} {args : Args}
    {rid : Nat} :
    ∀ (fuel : Nat) (sys : PhiSystem) (r : Rule),
      sys.ruleStore[rid]? = some r → r.logic args = none →
      (validateAux fuel sys mname f args).map (fun p => p.1)
        = (validateAux fuel (deactivate sys rid) mname f args).map (fun p => p.1) := by
  intro fuel
  induction fuel with
  | zero =>
    intro sys r hr hn
    simp [validateAux]
  | succ fuel ih =>
    intro sys r hr hn
    have hmodc : get_module (deactivate sys rid) mname = get_module sys mname :=
      deactivate_get_module ..
    cases hm : get_module sys mname with
    | none => simp [validateAux, hm, hmodc]
    | some mid =>
      cases hex : f args with
      | none => simp [validateAux, hm, hmodc, hex]
      | some v =>
        have hcol : collect_rules (deactivate sys rid) mid = collect_rules sys mid :=
          collect_deactivate ..
        have hsc : firstViolation (deactivate sys rid) (collect_rules sys mid) args
            = firstViolation sys (collect_rules sys mid) args :=
          firstViolation_deactivate_raising hr hn _
        cases hscan : firstViolation sys (collect_rules sys mid) args with
        | accept => simp [validateAux, hm, hmodc, hex, hcol, hsc, hscan]
        | hardStop n s => simp [validateAux, hm, hmodc, hex, hcol, hsc, hscan]
        | softFix rid2 =>
          obtain ⟨hmem2, r2, hr2, ha2, hk2, hl2⟩ := firstViolation_softFix hscan
          have hne : rid2 ≠ rid := by
            intro e
            subst e
            rw [hr] at hr2
            cases Option.some.inj hr2
            rw [hn] at hl2
            cases hl2
          have hcom : deactivate (deactivate sys rid) rid2
              = deactivate (deactivate sys rid2) rid :=
            deactivate_comm (Ne.symm hne)
          have step1 : validateAux (fuel + 1) sys mname f args
              = validateAux fuel (deactivate sys rid2) mname f args := by
            simp [validateAux, hm, hex, hscan]
          have step2 : validateAux (fuel + 1) (deactivate sys rid) mname f args
              = validateAux fuel (deactivate (deactivate sys rid) rid2) mname f args := by
            rw [show validateAux (fuel + 1) (deactivate sys rid) mname f args
                = match firstViolation (deactivate sys rid)
                    (collect_rules (deactivate sys rid) mid) args with
                  | .accept => some (.accepted, deactivate sys rid)
                  | .hardStop n s => some (.hardViolation n s, deactivate sys rid)
                  | .softFix rid' => validateAux fuel
                      (deactivate (deactivate sys rid) rid') mname f args by
              simp [validateAux, hmodc, hm, hex]]
            rw [hcol, hsc, hscan]
          rw [step1, step2, hcom]
          exact ih (deactivate sys rid2) r
            (by rw [deactivate_get?_ne sys (Ne.symm hne)]; exact hr) hn

theorem validateAux_raising_preserved {mname : String} {f : Transform} {args : Args}
    {rid : Nat} :
    ∀ (fuel : Nat) (sys : PhiSystem) (r : Rule),
      sys.ruleStore[rid]? = some r → r.logic args = none →
      ∀ {v : Verdict} {sys' : PhiSystem},
        validateAux fuel sys mname f args = some (v, sys') →
        sys'.ruleStore[rid]? = some r := by
  intro fuel
  induction fuel with
  | zero =>
    intro sys r hr hn v sys' h
    simp [validateAux] at h
  | succ fuel ih =>
    intro sys r hr hn v sys' h
    cases hm : get_module sys mname with
    | none =>
      simp only [validateAux, hm, Option.some.injEq, Prod.mk.injEq] at h
      obtain ⟨-, rfl⟩ := h
      exact hr
    | some mid =>
      cases hex : f args with
      | none =>
        simp only [validateAux, hm, hex, Option.some.injEq, Prod.mk.injEq] at h
        obtain ⟨-, rfl⟩ := h
        exact hr
      | some vres =>
        cases hscan : firstViolation sys (collect_rules sys mid) args with
        | accept =>
          simp only [validateAux, hm, hex, hscan, Option.some.injEq, Prod.mk.injEq] at h
          obtain ⟨-, rfl⟩ := h
          exact hr
        | hardStop n s =>
          simp only [validateAux, hm, hex, hscan, Option.some.injEq, Prod.mk.injEq] at h
          obtain ⟨-, rfl⟩ := h
          exact hr
        | softFix rid2 =>
          simp only [validateAux, hm, hex, hscan] at h
          obtain ⟨hmem2, r2, hr2, ha2, hk2, hl2⟩ := firstViolation_softFix hscan
          have hne : rid ≠ rid2 := by
            intro e
            subst e
            rw [hr] at hr2
            cases Option.some.inj hr2
            rw [hn] at hl2
            cases hl2
          exact ih (deactivate sys rid2) r
            (by rw [deactivate_get?_ne sys hne]; exact hr) hn h

end PhiImport

namespace PhiImport

/-! ### add_import helper lemmas -/

theorem add_import_fields (sys : PhiSystem) (mid impMid : Nat) :
    (add_import sys mid impMid).ruleStore = sys.ruleStore
    ∧ (add_import sys mid impMid).modules = sys.modules
    ∧ (add_import sys mid impMid).current_module = sys.current_module := by
  unfold add_import
  cases sys.modStore[mid]? <;> exact ⟨rfl, rfl, rfl⟩

theorem add_import_get?_self (sys : PhiSystem) (mid impMid : Nat) :
    ((add_import sys mid impMid).modStore[mid]?).map Module.imports
      = (sys.modStore[mid]?).map (fun m => m.imports ++ [impMid]) := by
  unfold add_import
  cases hm : sys.modStore[mid]? with
  | none => simp [hm]
  | some m =>
    simp only [hm]
    rw [setStore_get?_self { m with imports := m.imports ++ [impMid] } (get?_some_lt hm)]
    rfl

theorem add_import_get?_ne (sys : PhiSystem) (mid impMid : Nat) {j : Nat} (hj : j ≠ mid) :
    (add_import sys mid impMid).modStore[j]? = sys.modStore[j]? := by
  unfold add_import
  cases hm : sys.modStore[mid]? with
  | none => rfl
  | some m =>
    simp only [hm]
    exact setStore_get?_ne sys.modStore _ hj

end PhiImport

namespace KernelPoc

/-- C9: a Rule whose active flag is false passes `check` vacuously: the
predicate is not consulted and the result is True for every predicate and
every argument tuple, even when check is invoked directly, outside the
engine's own active-flag skip. -/
theorem inactive_check_true (r : Rule) (args : PhiImport.Args)
    (h : r.active = false) : r.check args = some true := by
  simp [Rule.check, h]

/-- Witness for C9 at a concrete deactivated rule whose predicate would
reject the arguments. -/
theorem inactive_check_true_case :
    exDead.active = false ∧ exDead.check [0] = some true :=
  ⟨rfl, inactive_check_true exDead [0] rfl⟩

end KernelPoc

namespace PhiImport

/-- C6 (amended): in phi_import_system, requesting creation of a module
whose name already exists returns the existing module reference, makes it
current, and leaves the registry and both heap stores untouched — no
replacement is created or installed.  (The phi_modular_system variant
violates the original claim; see the counterexample.) -/
theorem create_module_idempotent (sys : PhiSystem) (name : String) (mid : Nat)
    (h : get_module sys name = some mid) :
    (create_module sys name).2 = mid
    ∧ (create_module sys name).1 = { sys with current_module := some mid } := by
  unfold create_module
  rw [h]
  exact ⟨rfl, rfl⟩

/-- Witness for C6's amended theorem on a concrete registry. -/
theorem create_module_idempotent_case :
    get_module exSoftSys "Arithmetic" = some 0
    ∧ ((create_module exSoftSys "Arithmetic").2 = 0
      ∧ (create_module exSoftSys "Arithmetic").1
          = { exSoftSys with current_module := some 0 }) :=
  ⟨by decide, create_module_idempotent exSoftSys "Arithmetic" 0 (by decide)⟩

end PhiImport

namespace Modular

/-- C6 counterexample: in phi_modular_system, module A exists and owns one
rule; requesting creation of "A" again returns a fresh module reference
(index 1) with no rules, and installs it over the registry entry, so the
existing module is replaced rather than returned. -/
theorem create_module_overwrites_cex :
    get_module exASys "A" = some 0
    ∧ (exASys.modStore[0]?).map Module.rules = some [0]
    ∧ (create_module exASys "A").2 = 1
    ∧ get_module (create_module exASys "A").1 "A" = some 1
    ∧ ((create_module exASys "A").1.modStore[1]?).map Module.rules = some [] := by
  refine ⟨by decide, by decide, by decide, by decide, by decide⟩

end Modular

namespace PhiImport

/-- C7 counterexample: in exFwdSys, module A's `import B` line was parsed
while B was not yet registered, and B was created (with one rule)
afterwards; at validation time B exists in the registry, yet A has no
recorded import and B's rule is not collected when validating in A —
forward import references are not resolved at traversal time. -/
theorem forward_import_dropped_cex :
    get_module exFwdSys "A" = some 0
    ∧ get_module exFwdSys "B" = some 1
    ∧ (exFwdSys.modStore[1]?).map Module.rules = some [0]
    ∧ (exFwdSys.modStore[0]?).map Module.imports = some []
    ∧ collect_rules exFwdSys 0 = [] := by
  refine ⟨by decide, by decide, by decide, by decide, by decide⟩

/-- C7 (amended): an import declaration is resolved through the Registry at
declaration time, into a direct module reference: if the named module is
registered, a reference to it is appended to the current module's import
list (leaving all other state unchanged); if it is not registered, the
declaration is dropped with an error, so the named module's rules are not
collected at validation time even if it exists in the Registry by then. -/
theorem import_resolved_at_declaration (sys : PhiSystem) (impName : String)
    (cur : Nat) (hcur : sys.current_module = some cur) :
    (get_module sys impName = none → parse_import sys impName = sys)
    ∧ ∀ impMid, get_module sys impName = some impMid →
        (parse_import sys impName).ruleStore = sys.ruleStore
        ∧ (parse_import sys impName).modules = sys.modules
        ∧ (parse_import sys impName).current_module = sys.current_module
        ∧ ((parse_import sys impName).modStore[cur]?).map Module.imports
            = (sys.modStore[cur]?).map (fun m => m.imports ++ [impMid])
        ∧ ∀ j, j ≠ cur → (parse_import sys impName).modStore[j]? = sys.modStore[j]? := by
  constructor
  · intro hnone
    unfold parse_import
    rw [hcur, hnone]
  · intro impMid hsome
    have hp : parse_import sys impName = add_import sys cur impMid := by
      unfold parse_import
      rw [hcur, hsome]
    rw [hp]
    exact ⟨(add_import_fields sys cur impMid).1, (add_import_fields sys cur impMid).2.1,
      (add_import_fields sys cur impMid).2.2, add_import_get?_self sys cur impMid,
      fun j hj => add_import_get?_ne sys cur impMid hj⟩

/-- Witness for C7's amended theorem: module B is current and imports the
already-registered module A. -/
theorem import_resolved_at_declaration_case :
    exTwoSys.current_module = some 1
    ∧ ((get_module exTwoSys "Zzz" = none → parse_import exTwoSys "Zzz" = exTwoSys)
      ∧ ∀ impMid, get_module exTwoSys "Zzz" = some impMid →
          (parse_import exTwoSys "Zzz").ruleStore = exTwoSys.ruleStore
          ∧ (parse_import exTwoSys "Zzz").modules = exTwoSys.modules
          ∧ (parse_import exTwoSys "Zzz").current_module = exTwoSys.current_module
          ∧ ((parse_import exTwoSys "Zzz").modStore[1]?).map Module.imports
              = (exTwoSys.modStore[1]?).map (fun m => m.imports ++ [impMid])
          ∧ ∀ j, j ≠ 1 → (parse_import exTwoSys "Zzz").modStore[j]?
              = exTwoSys.modStore[j]?) :=
  ⟨by decide, import_resolved_at_declaration exTwoSys "Zzz" 1 (by decide)⟩

/-- C10: the rule collector reads only the module graph — it is unaffected
by the rule heap, so deactivated rules stay in its result and the audit
count (`len(all_rules)`) counts them too; the active check happens only
afterwards, in the validation loop, which skips an inactive reference
wherever it occurs in the list. -/
theorem collector_ignores_activation (sys : PhiSystem) (rs : List Rule)
    (rid mid : Nat) (args : Args) :
    collect_rules { sys with ruleStore := rs } mid = collect_rules sys mid
    ∧ auditCount (deactivate sys rid) mid = auditCount sys mid
    ∧ (∀ rid', activeAt sys rid' = false →
        ∀ xs ys, firstViolation sys (xs ++ rid' :: ys) args
          = firstViolation sys (xs ++ ys) args) := by
  refine ⟨rfl, ?_, ?_⟩
  · unfold auditCount
    rw [collect_deactivate]
  · intro rid' h xs ys
    exact firstViolation_insert_skip (Or.inl h) xs ys

/-- Witness for C10 on a registry holding one deactivated rule. -/
theorem collector_ignores_activation_case :
    activeAt exInactiveSys 0 = false
    ∧ collect_rules exInactiveSys 0 = [0]
    ∧ (collect_rules { exInactiveSys with ruleStore := [] } 0
          = collect_rules exInactiveSys 0
      ∧ auditCount (deactivate exInactiveSys 0) 0 = auditCount exInactiveSys 0
      ∧ (∀ rid', activeAt exInactiveSys rid' = false →
          ∀ xs ys, firstViolation exInactiveSys (xs ++ rid' :: ys) []
            = firstViolation exInactiveSys (xs ++ ys) [])) :=
  ⟨by decide, by decide, collector_ignores_activation exInactiveSys [] 0 0 []⟩

/-- C1: when a validation pass's conflict is an active soft rule whose
predicate returned false, the engine deactivates exactly that rule and
re-invokes the whole validation with the same module name, transformation,
arguments and (mutated) registry: the module is re-resolved, the
transformation re-executed and the rule set re-collected — yielding the
same reference list, with the repaired rule now inactive. -/
theorem soft_conflict_deactivates_and_restarts (sys : PhiSystem) (mname : String)
    (f : Transform) (args : Args) (mid rid : Nat) (v : Int) (fuel : Nat)
    (hmod : get_module sys mname = some mid)
    (hexec : f args = some v)
    (hscan : firstViolation sys (collect_rules sys mid) args = .softFix rid) :
    validateAux (fuel + 1) sys mname f args
      = validateAux fuel (deactivate sys rid) mname f args
    ∧ activeAt (deactivate sys rid) rid = false
    ∧ collect_rules (deactivate sys rid) mid = collect_rules sys mid
    ∧ get_module (deactivate sys rid) mname = some mid
    ∧ rid ∈ collect_rules sys mid := by
  obtain ⟨hmem, r, hr, ha, hk, hl⟩ := firstViolation_softFix hscan
  refine ⟨by simp [validateAux, hmod, hexec, hscan], ?_, collect_deactivate .., ?_, hmem⟩
  · simp [activeAt, deactivate_get?_self hr]
  · rw [deactivate_get_module]
    exact hmod

/-- Witness for C1 on a registry with one failing soft rule. -/
theorem soft_conflict_deactivates_and_restarts_case :
    get_module exSoftSys "Arithmetic" = some 0
    ∧ exOk [] = some 1
    ∧ firstViolation exSoftSys (collect_rules exSoftSys 0) [] = .softFix 0
    ∧ (validateAux 3 exSoftSys "Arithmetic" exOk []
        = validateAux 2 (deactivate exSoftSys 0) "Arithmetic" exOk []
      ∧ activeAt (deactivate exSoftSys 0) 0 = false
      ∧ collect_rules (deactivate exSoftSys 0) 0 = collect_rules exSoftSys 0
      ∧ get_module (deactivate exSoftSys 0) "Arithmetic" = some 0
      ∧ 0 ∈ collect_rules exSoftSys 0) :=
  ⟨by decide, rfl, by decide,
    soft_conflict_deactivates_and_restarts exSoftSys "Arithmetic" exOk [] 0 0 1 2
      (by decide) rfl (by decide)⟩

end PhiImport

namespace PhiImport

/-- C2: hard-rule primacy — when the module resolves, the transformation
executes without raising, and some active hard rule reachable from the
target module has a predicate that evaluates without raising and returns
false on the arguments, the final verdict of `validate` is a hard-rule
rejection (so the Python call returns False), regardless of how many soft
rules are also violated earlier or later in check order across the repair
restarts. -/
theorem hard_rule_primacy (sys : PhiSystem) (mname : String) (f : Transform)
    (args : Args) (mid rid : Nat) (v : Int) (r : Rule)
    (hmod : get_module sys mname = some mid)
    (hexec : f args = some v)
    (hmem : rid ∈ collect_rules sys mid)
    (hr : sys.ruleStore[rid]? = some r)
    (ha : r.active = true) (hk : r.kind = .hard) (hl : r.logic args = some false) :
    ∃ n s, (validate sys mname f args).1 = .hardViolation n s
      ∧ ((validate sys mname f args).1).toBool = false := by
  obtain ⟨n, s, sys', e⟩ := validateAux_hard (countActive sys + 1) sys r
    (Nat.lt_succ_self _) hmod hexec hmem hr ha hk hl
  refine ⟨n, s, ?_, ?_⟩
  · unfold validate
    rw [e]
    rfl
  · unfold validate
    rw [e]
    rfl

/-- Witness for C2: module M holds a failing soft rule checked before the
failing hard rule, and the verdict is still a hard-rule rejection. -/
theorem hard_rule_primacy_case :
    get_module exMixSys "M" = some 0
    ∧ exOk [] = some 1
    ∧ 1 ∈ collect_rules exMixSys 0
    ∧ exMixSys.ruleStore[1]? = some exHardRule
    ∧ exHardRule.active = true
    ∧ exHardRule.kind = .hard
    ∧ exHardRule.logic [] = some false
    ∧ (∃ n s, (validate exMixSys "M" exOk []).1 = .hardViolation n s
      ∧ ((validate exMixSys "M" exOk []).1).toBool = false) :=
  ⟨by decide, rfl, by decide, rfl, rfl, rfl, rfl,
    hard_rule_primacy exMixSys "M" exOk [] 0 1 1 exHardRule (by decide) rfl (by decide)
      rfl rfl rfl rfl⟩

/-- C3: let k be the number of distinct active soft rules reachable from
the resolved target module at call start.  Fuel k + 1 never exhausts — the
engine restarts at most k times, i.e. runs at most k + 1 passes — and any
larger fuel computes the same outcome, so `validate` terminates whenever
the transformation and the predicates do (they are total here). -/
theorem restart_bound (sys : PhiSystem) (mname : String) (f : Transform)
    (args : Args) (mid : Nat) (hmod : get_module sys mname = some mid) :
    (validateAux (activeSoftCount sys mid + 1) sys mname f args).isSome
    ∧ ∀ fuel, activeSoftCount sys mid + 1 ≤ fuel →
        validateAux fuel sys mname f args
          = validateAux (activeSoftCount sys mid + 1) sys mname f args :=
  validateAux_bound (activeSoftCount sys mid) sys hmod rfl

/-- Witness for C3 at a registry with exactly one active soft rule. -/
theorem restart_bound_case :
    get_module exSoftSys "Arithmetic" = some 0
    ∧ activeSoftCount exSoftSys 0 = 1
    ∧ ((validateAux (activeSoftCount exSoftSys 0 + 1) exSoftSys "Arithmetic" exOk []).isSome
      ∧ ∀ fuel, activeSoftCount exSoftSys 0 + 1 ≤ fuel →
          validateAux fuel exSoftSys "Arithmetic" exOk []
            = validateAux (activeSoftCount exSoftSys 0 + 1) exSoftSys "Arithmetic" exOk []) :=
  ⟨by decide, by decide, restart_bound exSoftSys "Arithmetic" exOk [] 0 (by decide)⟩

/-- C8: a rule whose predicate raises on the arguments is treated as not
applicable: every scan pass skips it wherever it occurs in the collected
list (no error is surfaced, it counts neither as pass nor fail), the
verdict equals — at every fuel — the verdict of the run with that rule
deactivated, and the whole validate call leaves the rule's heap object,
active flag included, untouched: neither the hard-rejection branch nor the
soft-repair branch fires for it. -/
theorem raising_predicate_skipped (sys : PhiSystem) (mname : String)
    (f : Transform) (args : Args) (rid : Nat) (r : Rule)
    (hr : sys.ruleStore[rid]? = some r) (hn : r.logic args = none) :
    (∀ xs ys, firstViolation sys (xs ++ rid :: ys) args
      = firstViolation sys (xs ++ ys) args)
    ∧ (∀ fuel, (validateAux fuel sys mname f args).map (fun p => p.1)
        = (validateAux fuel (deactivate sys rid) mname f args).map (fun p => p.1))
    ∧ (validate sys mname f args).2.ruleStore[rid]? = some r := by
  refine ⟨fun xs ys => firstViolation_insert_skip (Or.inr ⟨r, hr, hn⟩) xs ys,
    fun fuel => validateAux_raising_verdict fuel sys r hr hn, ?_⟩
  unfold validate
  cases h : validateAux (countActive sys + 1) sys mname f args with
  | none => exact hr
  | some p =>
    obtain ⟨v, sys'⟩ := p
    exact validateAux_raising_preserved _ sys r hr hn h

/-- Witness for C8 on a registry whose only rule always raises. -/
theorem raising_predicate_skipped_case :
    exRaiseSys.ruleStore[0]? = some exRaisingRule
    ∧ exRaisingRule.logic [] = none
    ∧ ((∀ xs ys, firstViolation exRaiseSys (xs ++ 0 :: ys) []
        = firstViolation exRaiseSys (xs ++ ys) [])
      ∧ (∀ fuel, (validateAux fuel exRaiseSys "M8" exOk []).map (fun p => p.1)
          = (validateAux fuel (deactivate exRaiseSys 0) "M8" exOk []).map (fun p => p.1))
      ∧ (validate exRaiseSys "M8" exOk []).2.ruleStore[0]? = some exRaisingRule) :=
  ⟨rfl, rfl, raising_predicate_skipped exRaiseSys "M8" exOk [] 0 exRaisingRule rfl rfl⟩

/-- C5: across every sequence of validate calls the engine preserves the
module store, the registry, the current-module pointer, the rule store's
length, and every rule's name, kind, origin module and predicate; only
active flags change, only from true to false (a deactivated rule never
reactivates), and the rule set reachable from any module is unchanged as a
list, so its active part is non-increasing across the sequence. -/
theorem engine_mutates_only_active (sys : PhiSystem)
    (calls : List (String × Transform × Args)) :
    Evolves sys (runCalls sys calls)
    ∧ (∀ mid, collect_rules (runCalls sys calls) mid = collect_rules sys mid)
    ∧ (∀ rid, activeAt (runCalls sys calls) rid = true → activeAt sys rid = true) := by
  have he := runCalls_evolves calls sys
  exact ⟨he, fun mid => collect_congr he.1 mid, fun rid h => (he.2.2.2.2 rid).2.2.2.2 h⟩

/-- Witness for C5 on a concrete two-call sequence whose first call repairs
a soft rule. -/
theorem engine_mutates_only_active_case :
    Evolves exSoftSys (runCalls exSoftSys
        [("Arithmetic", exOk, []), ("Arithmetic", exOk, [])])
    ∧ (∀ mid, collect_rules (runCalls exSoftSys
        [("Arithmetic", exOk, []), ("Arithmetic", exOk, [])]) mid
        = collect_rules exSoftSys mid)
    ∧ (∀ rid, activeAt (runCalls exSoftSys
        [("Arithmetic", exOk, []), ("Arithmetic", exOk, [])]) rid = true →
        activeAt exSoftSys rid = true) :=
  engine_mutates_only_active exSoftSys [("Arithmetic", exOk, []), ("Arithmetic", exOk, [])]

end PhiImport

namespace PhiImport

/-! ### The collector computes the spec's depth-first preorder -/

theorem dfsOrderList_acc (store : List Module) (fuel : Nat) :
    ∀ (l : List Nat) (a0 : List Nat) (visited : List String),
      dfsOrderList store fuel l (a0, visited)
        = (a0 ++ (dfsOrderList store fuel l ([], visited)).1,
           (dfsOrderList store fuel l ([], visited)).2) := by
  intro l
  induction l with
  | nil => intro a0 visited; simp [dfsOrderList]
  | cons i rest ih =>
    intro a0 visited
    rw [show dfsOrderList store fuel (i :: rest) (a0, visited)
        = dfsOrderList store fuel rest
            (a0 ++ (dfsOrder store fuel i visited).1, (dfsOrder store fuel i visited).2)
      from by simp [dfsOrderList]]
    rw [show dfsOrderList store fuel (i :: rest) ([], visited)
        = dfsOrderList store fuel rest
            ((dfsOrder store fuel i visited).1, (dfsOrder store fuel i visited).2)
      from by simp [dfsOrderList]]
    rw [ih (a0 ++ (dfsOrder store fuel i visited).1) (dfsOrder store fuel i visited).2]
    rw [ih (dfsOrder store fuel i visited).1 (dfsOrder store fuel i visited).2]
    simp [List.append_assoc]

theorem collectList_eq_dfs (store : List Module) (fuel : Nat)
    (ih : ∀ (mid : Nat) (acc : List Nat) (visited : List String),
      _collect_rules store fuel mid (acc, visited)
        = (acc ++ bindRules store (dfsOrder store fuel mid visited).1,
           (dfsOrder store fuel mid visited).2)) :
    ∀ (l : List Nat) (acc : List Nat) (visited : List String),
      l.foldl (fun st' imp => _collect_rules store fuel imp st') (acc, visited)
        = (acc ++ bindRules store (dfsOrderList store fuel l ([], visited)).1,
           (dfsOrderList store fuel l ([], visited)).2) := by
  intro l
  induction l with
  | nil => intro acc visited; simp [dfsOrderList, bindRules]
  | cons i rest ihl =>
    intro acc visited
    simp only [List.foldl_cons]
    rw [ih i acc visited]
    rw [ihl (acc ++ bindRules store (dfsOrder store fuel i visited).1)
      (dfsOrder store fuel i visited).2]
    rw [show dfsOrderList store fuel (i :: rest) ([], visited)
        = dfsOrderList store fuel rest
            ((dfsOrder store fuel i visited).1, (dfsOrder store fuel i visited).2)
      from by simp [dfsOrderList]]
    rw [dfsOrderList_acc store fuel rest (dfsOrder store fuel i visited).1
      (dfsOrder store fuel i visited).2]
    simp [bindRules_append, List.append_assoc]

theorem dfsOrder_enter {store : List Module} {mid : Nat} {m : Module}
    {visited : List String} (hm : store[mid]? = some m) (hv : m.name ∉ visited)
    (fuel : Nat) :
    dfsOrder store (fuel + 1) mid visited
      = (mid :: (dfsOrderList store fuel m.imports ([], m.name :: visited)).1,
         (dfsOrderList store fuel m.imports ([], m.name :: visited)).2) := by
  simp [dfsOrder, dfsOrderList, hm, hv]

theorem collect_eq_dfs (store : List Module) :
    ∀ (fuel : Nat) (mid : Nat) (acc : List Nat) (visited : List String),
      _collect_rules store fuel mid (acc, visited)
        = (acc ++ bindRules store (dfsOrder store fuel mid visited).1,
           (dfsOrder store fuel mid visited).2) := by
  intro fuel
  induction fuel with
  | zero => intro mid acc visited; simp [_collect_rules, dfsOrder, bindRules]
  | succ fuel ih =>
    intro mid acc visited
    cases hm : store[mid]? with
    | none => simp [_collect_rules, dfsOrder, hm, bindRules]
    | some m =>
      by_cases hv : m.name ∈ visited
      · simp [_collect_rules, dfsOrder, hm, hv, bindRules]
      · rw [show _collect_rules store (fuel + 1) mid (acc, visited)
            = m.imports.foldl (fun st' imp => _collect_rules store fuel imp st')
                (acc ++ m.rules, m.name :: visited) from by simp [_collect_rules, hm, hv]]
        rw [collectList_eq_dfs store fuel ih m.imports (acc ++ m.rules) (m.name :: visited)]
        rw [dfsOrder_enter hm hv fuel]
        simp [bindRules, ruleIdsAt, hm, List.append_assoc]

theorem dfsList_decomp (store : List Module) (fuel : Nat)
    (ih : ∀ (mid : Nat) (visited : List String),
      (dfsOrder store fuel mid visited).2
          = (namesOf store (dfsOrder store fuel mid visited).1).reverse ++ visited
      ∧ (namesOf store (dfsOrder store fuel mid visited).1).Nodup
      ∧ (∀ n ∈ namesOf store (dfsOrder store fuel mid visited).1, n ∉ visited)
      ∧ (∀ i ∈ (dfsOrder store fuel mid visited).1, (store[i]?).isSome)) :
    ∀ (l : List Nat) (visited : List String),
      (dfsOrderList store fuel l ([], visited)).2
          = (namesOf store (dfsOrderList store fuel l ([], visited)).1).reverse ++ visited
      ∧ (namesOf store (dfsOrderList store fuel l ([], visited)).1).Nodup
      ∧ (∀ n ∈ namesOf store (dfsOrderList store fuel l ([], visited)).1, n ∉ visited)
      ∧ (∀ i ∈ (dfsOrderList store fuel l ([], visited)).1, (store[i]?).isSome) := by
  intro l
  induction l with
  | nil =>
    intro visited
    exact ⟨by simp [dfsOrderList, namesOf], by simp [dfsOrderList, namesOf],
      by simp [dfsOrderList, namesOf], by simp [dfsOrderList]⟩
  | cons i rest ihl =>
    intro visited
    obtain ⟨hv1, hn1, hf1, hva1⟩ := ih i visited
    obtain ⟨hv2, hn2, hf2, hva2⟩ := ihl ((dfsOrder store fuel i visited).2)
    have hstep : dfsOrderList store fuel (i :: rest) ([], visited)
        = ((dfsOrder store fuel i visited).1
            ++ (dfsOrderList store fuel rest ([], (dfsOrder store fuel i visited).2)).1,
           (dfsOrderList store fuel rest ([], (dfsOrder store fuel i visited).2)).2) := by
      rw [show dfsOrderList store fuel (i :: rest) ([], visited)
          = dfsOrderList store fuel rest
              ((dfsOrder store fuel i visited).1, (dfsOrder store fuel i visited).2)
        from by simp [dfsOrderList]]
      exact dfsOrderList_acc store fuel rest (dfsOrder store fuel i visited).1
        (dfsOrder store fuel i visited).2
    rw [hstep]
    refine ⟨?_, ?_, ?_, ?_⟩
    · simp only [namesOf_append, List.reverse_append]
      rw [hv2, hv1]
      simp [List.append_assoc]
    · rw [namesOf_append, List.nodup_append]
      refine ⟨hn1, hn2, ?_⟩
      intro a ha1 ha2
      have hni := hf2 a ha2
      rw [hv1] at hni
      rw [List.mem_append] at hni
      push_neg at hni
      exact hni.1 (List.mem_reverse.mpr ha1)
    · intro n hn
      rw [namesOf_append, List.mem_append] at hn
      rcases hn with hn | hn
      · exact hf1 n hn
      · have hni := hf2 n hn
        rw [hv1] at hni
        rw [List.mem_append] at hni
        push_neg at hni
        exact hni.2
    · intro j hj
      rw [List.mem_append] at hj
      rcases hj with hj | hj
      · exact hva1 j hj
      · exact hva2 j hj

theorem dfsOrder_decomp (store : List Module) :
    ∀ (fuel : Nat) (mid : Nat) (visited : List String),
      (dfsOrder store fuel mid visited).2
          = (namesOf store (dfsOrder store fuel mid visited).1).reverse ++ visited
      ∧ (namesOf store (dfsOrder store fuel mid visited).1).Nodup
      ∧ (∀ n ∈ namesOf store (dfsOrder store fuel mid visited).1, n ∉ visited)
      ∧ (∀ i ∈ (dfsOrder store fuel mid visited).1, (store[i]?).isSome) := by
  intro fuel
  induction fuel with
  | zero =>
    intro mid visited
    exact ⟨by simp [dfsOrder, namesOf], by simp [dfsOrder, namesOf],
      by simp [dfsOrder, namesOf], by simp [dfsOrder]⟩
  | succ fuel ih =>
    intro mid visited
    cases hm : store[mid]? with
    | none =>
      exact ⟨by simp [dfsOrder, hm, namesOf], by simp [dfsOrder, hm, namesOf],
        by simp [dfsOrder, hm, namesOf], by simp [dfsOrder, hm]⟩
    | some m =>
      by_cases hv : m.name ∈ visited
      · exact ⟨by simp [dfsOrder, hm, hv, namesOf], by simp [dfsOrder, hm, hv, namesOf],
          by simp [dfsOrder, hm, hv, namesOf], by simp [dfsOrder, hm, hv]⟩
      · obtain ⟨pv, pn, pf, pa⟩ := dfsList_decomp store fuel ih m.imports (m.name :: visited)
        rw [dfsOrder_enter hm hv fuel]
        have hname : nameAt store mid = m.name := by simp [nameAt, hm]
        refine ⟨?_, ?_, ?_, ?_⟩
        · simp only [namesOf, List.map_cons, hname, List.reverse_cons]
          rw [show ((mid :: (dfsOrderList store fuel m.imports ([], m.name :: visited)).1,
              (dfsOrderList store fuel m.imports ([], m.name :: visited)).2)).2
            = (dfsOrderList store fuel m.imports ([], m.name :: visited)).2 from rfl]
          rw [pv]
          simp [namesOf, List.append_assoc]
        · simp only [namesOf, List.map_cons, hname]
          rw [List.nodup_cons]
          exact ⟨fun hmm => (pf m.name (by simpa [namesOf] using hmm))
            (List.mem_cons_self ..), by simpa [namesOf] using pn⟩
        · intro n hn
          simp only [namesOf, List.map_cons, hname] at hn
          rcases List.mem_cons.mp hn with rfl | hn
          · exact hv
          · intro hst
            exact (pf n (by simpa [namesOf] using hn)) (List.mem_cons_of_mem _ hst)
        · intro j hj
          rcases List.mem_cons.mp hj with rfl | hj
          · simp [hm]
          · exact pa j hj

/-- C4: the collected rule list is exactly the depth-first preorder
concatenation of whole per-module rule blocks in the spec's reference
order `dfsPreorder`: the target module first (its own rules first), then
each of its imports traversed depth-first in import-declaration order,
threading the visited set left to right; the visited module names are
pairwise distinct, so each module's rules appear exactly once, also across
cycles and diamonds; and every fuel of at least the store size computes
the same result, so a cyclic import graph cannot make the traversal loop. -/
theorem collect_rules_dfs (sys : PhiSystem) (mid : Nat) :
    collect_rules sys mid = bindRules sys.modStore (dfsPreorder sys.modStore mid)
    ∧ (namesOf sys.modStore (dfsPreorder sys.modStore mid)).Nodup
    ∧ (∀ i ∈ dfsPreorder sys.modStore mid, (sys.modStore[i]?).isSome)
    ∧ (∀ m, sys.modStore[mid]? = some m →
        dfsPreorder sys.modStore mid
          = mid :: (dfsOrderList sys.modStore sys.modStore.length m.imports
              ([], [m.name])).1
        ∧ collect_rules sys mid
            = m.rules ++ bindRules sys.modStore
                (dfsOrderList sys.modStore sys.modStore.length m.imports
                  ([], [m.name])).1)
    ∧ (∀ fuel, sys.modStore.length ≤ fuel →
        (_collect_rules sys.modStore fuel mid ([], [])).1 = collect_rules sys mid) := by
  have hstab : ∀ fuel, sys.modStore.length ≤ fuel →
      (_collect_rules sys.modStore fuel mid ([], [])).1 = collect_rules sys mid := by
    intro fuel hf
    unfold collect_rules
    rw [collect_stable_ge sys.modStore mid fuel hf,
      collect_stable_ge sys.modStore mid (sys.modStore.length + 1) (by omega)]
  have hmain : collect_rules sys mid
      = bindRules sys.modStore (dfsPreorder sys.modStore mid) := by
    unfold collect_rules dfsPreorder
    rw [collect_eq_dfs sys.modStore (sys.modStore.length + 1) mid [] []]
    simp
  obtain ⟨-, hnd, -, hva⟩ := dfsOrder_decomp sys.modStore (sys.modStore.length + 1) mid []
  refine ⟨hmain, hnd, hva, ?_, hstab⟩
  intro m hm
  have he := dfsOrder_enter hm (List.not_mem_nil m.name) sys.modStore.length
  constructor
  · unfold dfsPreorder
    rw [he]
  · rw [hmain]
    unfold dfsPreorder
    rw [he]
    simp [bindRules, ruleIdsAt, hm]

/-- Witness for C4: in exOrdSys module R imports B first and A second; the
spec preorder visits R, B, A in that declaration order and the collected
rules follow it (R's rule, then B's, then A's); exCycSys adds the cyclic
case, each module's rules appearing exactly once. -/
theorem collect_rules_dfs_case :
    dfsPreorder exOrdSys.modStore 0 = [0, 2, 1]
    ∧ collect_rules exOrdSys 0 = [0, 1, 2]
    ∧ collect_rules exCycSys 0 = [0, 1]
    ∧ (collect_rules exOrdSys 0
        = bindRules exOrdSys.modStore (dfsPreorder exOrdSys.modStore 0)
      ∧ (namesOf exOrdSys.modStore (dfsPreorder exOrdSys.modStore 0)).Nodup
      ∧ (∀ i ∈ dfsPreorder exOrdSys.modStore 0, (exOrdSys.modStore[i]?).isSome)
      ∧ (∀ m, exOrdSys.modStore[0]? = some m →
          dfsPreorder exOrdSys.modStore 0
            = 0 :: (dfsOrderList exOrdSys.modStore exOrdSys.modStore.length m.imports
                ([], [m.name])).1
          ∧ collect_rules exOrdSys 0
              = m.rules ++ bindRules exOrdSys.modStore
                  (dfsOrderList exOrdSys.modStore exOrdSys.modStore.length m.imports
                    ([], [m.name])).1)
      ∧ (∀ fuel, exOrdSys.modStore.length ≤ fuel →
          (_collect_rules exOrdSys.modStore fuel 0 ([], [])).1
            = collect_rules exOrdSys 0)) :=
  ⟨by decide, by decide, by decide, collect_rules_dfs exOrdSys 0⟩

end PhiImport
